import Mathlib

/-!
Verification of the An Crubadan n-gram corpus reader
(src/nltk/corpus/reader/crubadan.py) against its specification.

The Python module is shallowly embedded as executable Lean definitions:
  * Python strings are `List Char` (ASCII-scope for case folding and the
    regex word class, which is all the corpus data uses);
  * raised exceptions are `Except PyError`;
  * the class-level dictionary `all_lang_freq` is threaded explicitly as a
    `Cache` value (it is shared process-wide state in the source);
  * the filesystem is a finite map from root-relative file names to file
    contents (`path.join(root, f)` is dropped since `root` is constant);
  * `open(f, 'rU')` universal-newline decoding is `uNewlines`.

Every definition in the `Crubadan` namespace that carries a source name
(`langs`, `iso_to_crubadan`, `crubadan_to_iso`, `load_lang_mapping_data`,
`load_lang_ngrams`, `load_all_ngrams`, `lang_freq`, `mkReader` for
`__init__`) is translated line by line from the source, including its
evaluation order and its bugs (`raise Runtime` is an undefined name, so it
is modelled as a `NameError`; `lang.lower()` on `None` is an
`AttributeError`).  `specFullMatch` is the one specification-side
definition, used to compare the spec wording of the bulk-load file pattern
with the code's `re.search` behaviour.
-/

namespace Crubadan

/-- Python strings, modelled as lists of characters. -/
abbrev Str := List Char

/-- Coerce a Lean string literal into the model's string type. -/
def str (s : String) : Str := s.data

/-- The Python exceptions the reader can raise. -/
inductive PyError where
  | runtimeError (msg : Str)
  | nameError (missing : Str)
  | attributeError (msg : Str)
  | keyError (key : Str)
  | indexError
  | valueError
  | ioError
deriving DecidableEq

/-- Python sequence indexing `l[i]`: `IndexError` when out of range. -/
def pyIndex {α : Type} (l : List α) (i : Nat) : Except PyError α :=
  match l[i]? with
  | some a => .ok a
  | none => .error .indexError

/-- Python `\w` word-character class (ASCII scope). -/
def isWordChar (c : Char) : Bool := c.isAlphanum || c == '_'

/-- Python whitespace stripped by `str.strip()` (ASCII scope). -/
def isPySpace (c : Char) : Bool :=
  (c == ' ') || (c == '\t') || (c == '\n') || (c == '\r') || (c == '\x0b') || (c == '\x0c')

/-- Python `str.lower()` (ASCII scope). -/
def lcLower (l : Str) : Str := l.map Char.toLower

/-- Strip characters satisfying `p` from both ends of a string. -/
def stripBoth (p : Char → Bool) (l : Str) : Str :=
  ((l.dropWhile p).reverse.dropWhile p).reverse

/-- Python `str.strip()` with no arguments. -/
def pyTrim (l : Str) : Str := stripBoth isPySpace l

/-- Python `str.strip('\n')`. -/
def stripNl (l : Str) : Str := stripBoth (fun c => c == '\n') l

/-- Worker for `splitChar`; `acc` holds the current field reversed. -/
def splitCharGo (sep : Char) : List Char → List Char → List Str
  | [], acc => [acc.reverse]
  | c :: rest, acc =>
    if c == sep then acc.reverse :: splitCharGo sep rest []
    else splitCharGo sep rest (c :: acc)

/-- Python `str.split(sep)` for a single-character separator:
keeps empty fields, `"".split(sep) == [""]`. -/
def splitChar (sep : Char) (l : Str) : List Str := splitCharGo sep l []

/-- Worker for `pyLines`; `acc` holds the current line reversed. -/
def pyLinesGo : List Char → List Char → List Str
  | [], acc => if acc.isEmpty then [] else [acc.reverse]
  | c :: rest, acc =>
    if c == '\n' then (acc.reverse ++ ['\n']) :: pyLinesGo rest []
    else pyLinesGo rest (c :: acc)

/-- Python file iteration (`for line in f`): lines keep their trailing
newline; a last line without a newline is still yielded; an empty file
yields nothing. -/
def pyLines (l : Str) : List Str := pyLinesGo l []

/-- Universal-newline translation performed by `open(f, 'rU')`:
`"\r\n"` and a lone `"\r"` both become `"\n"`. -/
def uNewlines : Str → Str
  | [] => []
  | [c] => if c == '\r' then ['\n'] else [c]
  | c :: d :: rest =>
    if c == '\r' then
      if d == '\n' then '\n' :: uNewlines rest
      else '\n' :: uNewlines (d :: rest)
    else c :: uNewlines (d :: rest)

/-- Numeric value of a base-10 digit string. -/
def natOfDigits (l : Str) : Nat := l.foldl (fun a c => a * 10 + (c.toNat - 48)) 0

/-- Python `int(s)` on a text argument: surrounding whitespace is allowed,
then an optional sign and a non-empty run of base-10 digits; anything else
is a `ValueError`. -/
def pyInt (l : Str) : Except PyError Int :=
  match pyTrim l with
  | [] => .error .valueError
  | c :: rest =>
    if c == '-' then
      if !rest.isEmpty && rest.all Char.isDigit then .ok (-(natOfDigits rest : Int))
      else .error .valueError
    else if c == '+' then
      if !rest.isEmpty && rest.all Char.isDigit then .ok ((natOfDigits rest : Int))
      else .error .valueError
    else
      if (c :: rest).all Char.isDigit then .ok ((natOfDigits (c :: rest) : Int))
      else .error .valueError

/-- Python dict membership test. -/
def dictHasKey {α β : Type} [BEq α] (d : List (α × β)) (k : α) : Bool :=
  d.any (fun p => p.1 == k)

/-- Python dict lookup `d.get(k)`. -/
def dictGet {α β : Type} [BEq α] (d : List (α × β)) (k : α) : Option β :=
  Option.map Prod.snd (List.find? (fun p => p.1 == k) d)

/-- Python dict assignment `d[k] = v`: updates the existing entry in place
(preserving insertion order) or appends a new one. -/
def dictSet {α β : Type} [BEq α] (d : List (α × β)) (k : α) (v : β) : List (α × β) :=
  if d.any (fun p => p.1 == k) then
    d.map (fun p => if p.1 == k then (k, v) else p)
  else d ++ [(k, v)]

/-- The root directory, as a finite map from root-relative file name to
file content. -/
structure PyFS where
  files : List (Str × Str)
deriving DecidableEq

/-- `os.path.isfile` relative to the corpus root. -/
def PyFS.isfile (fs : PyFS) (name : Str) : Bool :=
  fs.files.any (fun p => p.1 == name)

/-- Reading a file's full content; `none` when the file does not exist. -/
def PyFS.readFile (fs : PyFS) (name : Str) : Option Str :=
  Option.map Prod.snd (List.find? (fun p => p.1 == name) fs.files)

/-- An n-gram frequency distribution (`FreqDist`): n-gram to count. -/
abbrev FreqDist := List (Str × Int)

/-- The class-level `all_lang_freq` dictionary.  Its keys are the values
produced by `crubadan_to_iso`, which can be `None`, hence `Option Str`. -/
abbrev Cache := List (Option Str × FreqDist)

/-- `_LANG_MAPPER_FILE = 'table.txt'`. -/
def LANG_MAPPER_FILE : Str := str "table.txt"

/-- `langs(self)`: `[row[1] for row in self._lang_mapping_data]`.
Reads `row[1]` unconditionally, so a one-field row is an `IndexError`. -/
def langs : List (List Str) → Except PyError (List Str)
  | [] => .ok []
  | row :: rest =>
    match row[1]? with
    | none => .error .indexError
    | some b =>
      match langs rest with
      | .error e => .error e
      | .ok out => .ok (b :: out)

/-- `iso_to_crubadan(self, lang)`.  The scan evaluates `i[1].lower()`
before `lang.lower()`, so with a populated table and `lang = None` the
call raises `AttributeError`; falling off the loop returns `None`. -/
def iso_to_crubadan : List (List Str) → Option Str → Except PyError (Option Str)
  | [], _ => .ok none
  | i :: rest, lang =>
    match i[1]? with
    | none => .error .indexError
    | some b =>
      match lang with
      | none => .error (.attributeError (str "NoneType object has no attribute lower"))
      | some l =>
        if lcLower b = lcLower l then
          match i[0]? with
          | none => .error .indexError
          | some a => .ok (some a)
        else iso_to_crubadan rest lang

/-- `crubadan_to_iso(self, lang)`: first row whose internal code matches
case-insensitively; `None` when no row matches. -/
def crubadan_to_iso : List (List Str) → Str → Except PyError (Option Str)
  | [], _ => .ok none
  | i :: rest, lang =>
    match i[0]? with
    | none => .error .indexError
    | some a =>
      if lcLower a = lcLower lang then
        match i[1]? with
        | none => .error .indexError
        | some b => .ok (some b)
      else crubadan_to_iso rest lang

/-- `_load_lang_mapping_data(self)`: reject a zip-backed root, require
`table.txt` in the file listing, then split the stripped content into
lines and each line on a tab. -/
def load_lang_mapping_data (isZip : Bool) (fileids : List Str) (fs : PyFS) :
    Except PyError (List (List Str)) :=
  if isZip then
    .error (.runtimeError (str "Please install the crubadan corpus first, use nltk.download()"))
  else if LANG_MAPPER_FILE ∈ fileids then
    match fs.readFile LANG_MAPPER_FILE with
    | none => .error .ioError
    | some raw => .ok ((splitChar '\n' (pyTrim (uNewlines raw))).map (splitChar '\t'))
  else .error (.runtimeError (str "Could not find language mapper file"))

/-- One n-gram line: `data = line.split(' ')`, then
`ngram = data[1].strip('\n')` (an `IndexError` on a spaceless line comes
first), then `freq = int(data[0])`, then `counts[ngram] = freq`. -/
def processNgramLine (counts : FreqDist) (line : Str) : Except PyError FreqDist :=
  match (splitChar ' ' line)[1]? with
  | none => .error .indexError
  | some raw =>
    match (splitChar ' ' line)[0]? with
    | none => .error .indexError
    | some c0 =>
      match pyInt c0 with
      | .error e => .error e
      | .ok freq => .ok (dictSet counts (stripNl raw) freq)

/-- The `for line in f` loop of `_load_lang_ngrams`. -/
def ngramLoop (counts : FreqDist) : List Str → Except PyError FreqDist
  | [] => .ok counts
  | line :: rest =>
    match processNgramLine counts line with
    | .error e => .error e
    | .ok c2 => ngramLoop c2 rest

/-- The literal suffix `-3grams.txt` of the n-gram file names. -/
def ngramSuffix : Str := str "-3grams.txt"

/-- Python `unicode(x)` applied to the result of `iso_to_crubadan`:
identity on a string, the text `"None"` on `None`. -/
def ccName : Option Str → Str
  | some s => s
  | none => str "None"

/-- `_load_lang_ngrams(self, lang)`.  When `iso_to_crubadan` returns
`None`, `unicode(None)` makes the file name `"None-3grams.txt"`.  When the
file is absent the source executes `raise Runtime(...)` where `Runtime` is
an undefined name, so the exception actually raised is a `NameError`, not
the intended file-not-found `RuntimeError`. -/
def load_lang_ngrams (data : List (List Str)) (fs : PyFS) (lang : Option Str) :
    Except PyError FreqDist :=
  match iso_to_crubadan data lang with
  | .error e => .error e
  | .ok cc =>
    if fs.isfile (ccName cc ++ ngramSuffix) then
      match fs.readFile (ccName cc ++ ngramSuffix) with
      | none => .error .ioError
      | some content => ngramLoop [] (pyLines (uNewlines content))
    else .error (.nameError (str "Runtime"))

/-- `re.search('(\w+)' + re.escape("-3grams.txt"), f)` followed by
`m.group()`: the leftmost occurrence (in `f`) of a non-empty word-character
run immediately followed by `-3grams.txt`, returned as the matched
substring.  Because `-` is not a word character, the greedy `\w+` can only
end exactly where the literal suffix starts, so per start position there
is a single candidate. -/
def searchNgram : Str → Option Str
  | [] => none
  | c :: cs =>
    if !(List.takeWhile isWordChar (c :: cs)).isEmpty
        && List.isPrefixOf ngramSuffix (List.dropWhile isWordChar (c :: cs)) then
      some (List.takeWhile isWordChar (c :: cs) ++ ngramSuffix)
    else searchNgram cs

/-- The `valid_files` list built by `_load_all_ngrams`: the matched group
of every file id that contains a match. -/
def validFiles (fileids : List Str) : List Str := fileids.filterMap searchNgram

/-- The second loop of `_load_all_ngrams`, threading the class-level
cache.  A file that fails the `isfile` check is skipped; otherwise the
internal code is `f.split('-')[0]`, the ISO code comes from
`crubadan_to_iso` (possibly `None`), and `_load_lang_ngrams` is called
unconditionally on it. -/
def loadAllGo (data : List (List Str)) (fs : PyFS) :
    List Str → Cache → Except PyError Unit × Cache
  | [], c => (.ok (), c)
  | f :: rest, c =>
    if fs.isfile f then
      match crubadan_to_iso data ((splitChar '-' f).headD []) with
      | .error e => (.error e, c)
      | .ok iso =>
        match load_lang_ngrams data fs iso with
        | .error e => (.error e, c)
        | .ok fd => loadAllGo data fs rest (dictSet c iso fd)
    else loadAllGo data fs rest c

/-- `_load_all_ngrams(self)`. -/
def load_all_ngrams (data : List (List Str)) (fileids : List Str) (fs : PyFS)
    (cache : Cache) : Except PyError Unit × Cache :=
  loadAllGo data fs (validFiles fileids) cache

/-- The reader's per-instance state after `__init__`. -/
structure Reader where
  data : List (List Str)
  fileids : List Str
deriving DecidableEq

/-- `CrubadanCorpusReader.__init__`: load the mapping table, then bulk
load every discovered n-gram file into the (shared) cache. -/
def mkReader (isZip : Bool) (fileids : List Str) (fs : PyFS) (cache : Cache) :
    Except PyError Reader × Cache :=
  match load_lang_mapping_data isZip fileids fs with
  | .error e => (.error e, cache)
  | .ok data =>
    match load_all_ngrams data fileids fs cache with
    | (.ok _, c) => (.ok ⟨data, fileids⟩, c)
    | (.error e, c) => (.error e, c)

/-- `lang_freq(self, lang)`: reload everything if the cache is empty, then
an exact-key dict lookup (`KeyError` when absent, the "key not present"
realisation of `LanguageNotFound`). -/
def lang_freq (r : Reader) (fs : PyFS) (cache : Cache) (lang : Str) :
    Except PyError FreqDist × Cache :=
  match (if cache.isEmpty then load_all_ngrams r.data r.fileids fs cache
         else (.ok (), cache) : Except PyError Unit × Cache) with
  | (.error e, c) => (.error e, c)
  | (.ok _, c) =>
    match dictGet c (some lang) with
    | some fd => (.ok fd, c)
    | none => (.error (.keyError lang), c)

/-- A sequence of `lang_freq` accessor calls on one reader, threading the
shared cache; the returned distributions are discarded. -/
def runQueries (r : Reader) (fs : PyFS) : List Str → Cache → Cache
  | [], c => c
  | q :: qs, c => runQueries r fs qs (lang_freq r fs c q).2

/-- Modelled from the spec wording of section 4.4 ("file names matching
the pattern `<token>-3grams.txt` (token = one or more word characters)"),
read as the whole name matching the pattern: used to compare the spec's
description of bulk-load file selection with the code's `re.search`. -/
def specFullMatch (l : Str) : Bool :=
  l.drop (l.length - 11) == ngramSuffix
    && !(l.take (l.length - 11)).isEmpty
    && (l.take (l.length - 11)).all isWordChar

/-! ### Dictionary lemmas -/

theorem dictHasKey_dictSet_self {α β : Type} [BEq α] [LawfulBEq α]
    (d : List (α × β)) (k : α) (v : β) : dictHasKey (dictSet d k v) k = true := by
  unfold dictSet dictHasKey
  split
  · next h =>
    simp only [List.any_eq_true] at h ⊢
    obtain ⟨p, hp, hpk⟩ := h
    exact ⟨(k, v), List.mem_map.mpr ⟨p, hp, by simp [hpk]⟩, by simp⟩
  · simp

theorem dictHasKey_dictSet_cases {α β : Type} [BEq α] [LawfulBEq α]
    {d : List (α × β)} {k k2 : α} {v : β}
    (h : dictHasKey (dictSet d k v) k2 = true) :
    k2 = k ∨ dictHasKey d k2 = true := by
  unfold dictSet at h
  unfold dictHasKey at h ⊢
  split at h
  · simp only [List.any_eq_true] at h ⊢
    obtain ⟨p, hp, hpk⟩ := h
    obtain ⟨q, hq, hqe⟩ := List.mem_map.mp hp
    by_cases hqk : q.1 == k
    · simp only [hqk, if_pos] at hqe
      subst hqe
      simp only [beq_iff_eq] at hpk
      exact Or.inl hpk.symm
    · simp only [hqk, Bool.false_eq_true, if_neg, reduceIte] at hqe
      subst hqe
      exact Or.inr ⟨q, hq, hpk⟩
  · simp only [List.any_append, Bool.or_eq_true, List.any_eq_true] at h
    rcases h with h | h
    · exact Or.inr (List.any_eq_true.mpr h)
    · obtain ⟨p, hp, hpk⟩ := h
      simp only [List.mem_singleton] at hp
      subst hp
      simp only [beq_iff_eq] at hpk
      exact Or.inl hpk.symm

theorem dictHasKey_dictSet_of_hasKey {α β : Type} [BEq α] [LawfulBEq α]
    {d : List (α × β)} {k2 : α} (k : α) (v : β)
    (h : dictHasKey d k2 = true) : dictHasKey (dictSet d k v) k2 = true := by
  unfold dictSet
  unfold dictHasKey at h ⊢
  simp only [List.any_eq_true] at h
  obtain ⟨p, hp, hpk⟩ := h
  split
  · simp only [List.any_eq_true]
    by_cases hqk : p.1 == k
    · refine ⟨(k, v), List.mem_map.mpr ⟨p, hp, by simp [hqk]⟩, ?_⟩
      simp only [beq_iff_eq] at hqk hpk ⊢
      rw [← hqk, hpk]
    · exact ⟨p, List.mem_map.mpr ⟨p, hp, by simp [hqk]⟩, hpk⟩
  · simp only [List.any_append, Bool.or_eq_true, List.any_eq_true]
    exact Or.inl ⟨p, hp, hpk⟩

theorem dictGet_eq_none_iff {α β : Type} [BEq α] (d : List (α × β)) (k : α) :
    dictGet d k = none ↔ dictHasKey d k = false := by
  unfold dictGet dictHasKey
  simp [List.find?_eq_none, List.any_eq_false]

theorem find?_cons_pos {α : Type} (q : α → Bool) (a : α) (l : List α)
    (h : q a = true) : List.find? q (a :: l) = some a :=
  List.find?_cons_of_pos l h

theorem find?_cons_neg {α : Type} (q : α → Bool) (a : α) (l : List α)
    (h : q a = false) : List.find? q (a :: l) = List.find? q l :=
  List.find?_cons_of_neg l (by simp [h])

theorem find?_dictSetMap_self {α β : Type} [BEq α] [LawfulBEq α]
    {d : List (α × β)} {k : α} (v : β) (h : ∃ q ∈ d, (q.1 == k) = true) :
    List.find? (fun p => p.1 == k) (d.map (fun p => if p.1 == k then (k, v) else p))
      = some (k, v) := by
  induction d with
  | nil => simp at h
  | cons p rest ih =>
    cases hpk : (p.1 == k) with
    | true =>
      rw [List.map_cons, if_pos hpk, find?_cons_pos (fun p => p.1 == k) (k, v) _ (by simp)]
    | false =>
      rw [List.map_cons, if_neg (by simp [hpk]), find?_cons_neg (fun p => p.1 == k) p _ hpk]
      apply ih
      obtain ⟨q, hq, hqk⟩ := h
      rcases List.mem_cons.mp hq with h1 | h1
      · rw [h1] at hqk
        simp [hqk] at hpk
      · exact ⟨q, h1, hqk⟩

theorem find?_appendSingle_self {α β : Type} [BEq α] [LawfulBEq α]
    {d : List (α × β)} {k : α} (v : β) (h : ∀ q ∈ d, (q.1 == k) = false) :
    List.find? (fun p => p.1 == k) (d ++ [(k, v)]) = some (k, v) := by
  induction d with
  | nil => rw [List.nil_append, find?_cons_pos (fun p => p.1 == k) (k, v) _ (by simp)]
  | cons p rest ih =>
    rw [List.cons_append, find?_cons_neg (fun p => p.1 == k) p _ (h p (List.mem_cons_self _ _))]
    exact ih fun q hq => h q (List.mem_cons_of_mem _ hq)

theorem dictGet_dictSet_self {α β : Type} [BEq α] [LawfulBEq α]
    (d : List (α × β)) (k : α) (v : β) : dictGet (dictSet d k v) k = some v := by
  unfold dictSet dictGet
  split
  · next h =>
    simp only [List.any_eq_true] at h
    rw [find?_dictSetMap_self v h]
    rfl
  · next h =>
    simp only [List.any_eq_true] at h
    push_neg at h
    simp only [Bool.not_eq_true] at h
    rw [find?_appendSingle_self v h]
    rfl

theorem find?_dictSetMap_ne {α β : Type} [BEq α] [LawfulBEq α]
    (d : List (α × β)) {k k2 : α} (v : β) (hne : k2 ≠ k) :
    List.find? (fun p => p.1 == k2) (d.map (fun p => if p.1 == k then (k, v) else p))
      = List.find? (fun p => p.1 == k2) d := by
  induction d with
  | nil => simp
  | cons p rest ih =>
    cases hpk : (p.1 == k) with
    | true =>
      have h1 : p.1 = k := by simpa using hpk
      have hp2 : (p.1 == k2) = false := by
        simp only [beq_eq_false_iff_ne, h1]
        exact fun h2 => hne h2.symm
      have hkv2 : (((k, v) : α × β).1 == k2) = false := by
        simp only [beq_eq_false_iff_ne]
        exact fun h2 => hne h2.symm
      rw [List.map_cons, if_pos hpk, find?_cons_neg (fun p => p.1 == k2) (k, v) _ hkv2,
        find?_cons_neg (fun p => p.1 == k2) p _ hp2, ih]
    | false =>
      rw [List.map_cons, if_neg (by simp [hpk])]
      cases hpk2 : (p.1 == k2) with
      | true =>
        rw [find?_cons_pos (fun p => p.1 == k2) p _ hpk2,
          find?_cons_pos (fun p => p.1 == k2) p _ hpk2]
      | false =>
        rw [find?_cons_neg (fun p => p.1 == k2) p _ hpk2,
          find?_cons_neg (fun p => p.1 == k2) p _ hpk2, ih]

theorem find?_appendSingle_ne {α β : Type} [BEq α] [LawfulBEq α]
    (d : List (α × β)) {k k2 : α} (v : β) (hne : k2 ≠ k) :
    List.find? (fun p => p.1 == k2) (d ++ [(k, v)])
      = List.find? (fun p => p.1 == k2) d := by
  induction d with
  | nil =>
    have hkv2 : (((k, v) : α × β).1 == k2) = false := by
      simp only [beq_eq_false_iff_ne]
      exact fun h2 => hne h2.symm
    rw [List.nil_append, find?_cons_neg (fun p => p.1 == k2) (k, v) _ hkv2]
  | cons p rest ih =>
    cases hpk2 : (p.1 == k2) with
    | true =>
      rw [List.cons_append, find?_cons_pos (fun p => p.1 == k2) p _ hpk2,
        find?_cons_pos (fun p => p.1 == k2) p _ hpk2]
    | false =>
      rw [List.cons_append, find?_cons_neg (fun p => p.1 == k2) p _ hpk2,
        find?_cons_neg (fun p => p.1 == k2) p _ hpk2, ih]

theorem dictGet_dictSet_ne {α β : Type} [BEq α] [LawfulBEq α]
    (d : List (α × β)) {k k2 : α} (v : β) (hne : k2 ≠ k) :
    dictGet (dictSet d k v) k2 = dictGet d k2 := by
  unfold dictSet dictGet
  split
  · rw [find?_dictSetMap_ne d v hne]
  · rw [find?_appendSingle_ne d v hne]

/-! ### Lookup and bulk-load lemmas -/

theorem crubadan_to_iso_ok_some {data : List (List Str)} {lang s : Str}
    (h : crubadan_to_iso data lang = .ok (some s)) :
    ∃ row, row ∈ data ∧ row[1]? = some s := by
  induction data with
  | nil => simp [crubadan_to_iso] at h
  | cons i rest ih =>
    simp only [crubadan_to_iso] at h
    split at h
    · exact absurd h (by simp)
    · split at h
      · split at h
        · exact absurd h (by simp)
        · next b hb =>
          refine ⟨i, List.mem_cons_self _ _, ?_⟩
          injection h with h2
          injection h2 with h3
          rw [hb, h3]
      · obtain ⟨row, hmem, hrow⟩ := ih h
        exact ⟨row, List.mem_cons_of_mem _ hmem, hrow⟩

theorem loadAllGo_keys {data : List (List Str)} {fs : PyFS} :
    ∀ vfs c res c2, loadAllGo data fs vfs c = (res, c2) →
      ∀ s, dictHasKey c2 (some s) = true →
        dictHasKey c (some s) = true ∨ ∃ row, row ∈ data ∧ row[1]? = some s := by
  intro vfs
  induction vfs with
  | nil =>
    intro c res c2 h s hs
    simp only [loadAllGo] at h
    injection h with h1 h2
    subst h2
    exact Or.inl hs
  | cons f rest ih =>
    intro c res c2 h s hs
    simp only [loadAllGo] at h
    split at h
    · split at h
      · injection h with h1 h2
        subst h2
        exact Or.inl hs
      · next iso hiso =>
        split at h
        · injection h with h1 h2
          subst h2
          exact Or.inl hs
        · rcases ih _ _ _ h s hs with hc | htab
          · rcases dictHasKey_dictSet_cases hc with hk | hc2
            · cases iso with
              | none => exact absurd hk (by simp)
              | some t =>
                injection hk with hst
                subst hst
                exact Or.inr (crubadan_to_iso_ok_some hiso)
            · exact Or.inl hc2
          · exact Or.inr htab
    · exact ih _ _ _ h s hs

theorem loadAllGo_monoKeys {data : List (List Str)} {fs : PyFS} :
    ∀ vfs c k, dictHasKey c k = true → dictHasKey (loadAllGo data fs vfs c).2 k = true := by
  intro vfs
  induction vfs with
  | nil =>
    intro c k h
    simpa [loadAllGo] using h
  | cons f rest ih =>
    intro c k h
    simp only [loadAllGo]
    split
    · split
      · exact h
      · split
        · exact h
        · exact ih _ _ (dictHasKey_dictSet_of_hasKey _ _ h)
    · exact ih _ _ h

theorem loadAllGo_mem {data : List (List Str)} {fs : PyFS} :
    ∀ vfs c c2 g iso, loadAllGo data fs vfs c = (.ok (), c2) → g ∈ vfs →
      fs.isfile g = true →
      crubadan_to_iso data ((splitChar '-' g).headD []) = .ok iso →
      dictHasKey c2 iso = true := by
  intro vfs
  induction vfs with
  | nil =>
    intro c c2 g iso h hg
    simp at hg
  | cons f rest ih =>
    intro c c2 g iso h hg hisf hcru
    rcases List.mem_cons.mp hg with rfl | hg2
    · simp only [loadAllGo] at h
      rw [if_pos hisf] at h
      split at h
      · next e heq =>
        rw [hcru] at heq
        exact absurd heq (by simp)
      · next iso2 heq =>
        rw [hcru] at heq
        injection heq with h3
        subst h3
        split at h
        · injection h with h1 h2
          exact absurd h1 (by simp)
        · next fd hfd =>
          have hkey := dictHasKey_dictSet_self c iso fd
          have hmono := @loadAllGo_monoKeys data fs rest (dictSet c iso fd) iso hkey
          rw [h] at hmono
          exact hmono
    · simp only [loadAllGo] at h
      split at h
      · split at h
        · injection h with h1 h2
          exact absurd h1 (by simp)
        · split at h
          · injection h with h1 h2
            exact absurd h1 (by simp)
          · exact ih _ _ _ _ h hg2 hisf hcru
      · exact ih _ _ _ _ h hg2 hisf hcru

/-! ### langs lemmas -/

theorem langs_ok_forall {data : List (List Str)} {out : List Str}
    (h : langs data = .ok out) : ∀ row ∈ data, ∃ b, row[1]? = some b := by
  induction data generalizing out with
  | nil =>
    intro row hr
    simp at hr
  | cons r rest ih =>
    intro row hrow
    simp only [langs] at h
    split at h
    · exact absurd h (by simp)
    · next b hb =>
      split at h
      · exact absurd h (by simp)
      · next out2 hout =>
        rcases List.mem_cons.mp hrow with rfl | h2
        · exact ⟨b, hb⟩
        · exact ih hout row h2

theorem langs_ok_mem {data : List (List Str)} {out : List Str} {code : Str}
    (h : langs data = .ok out) (hc : code ∈ out) :
    ∃ row, row ∈ data ∧ row[1]? = some code := by
  induction data generalizing out with
  | nil =>
    simp only [langs] at h
    injection h with h1
    subst h1
    simp at hc
  | cons r rest ih =>
    simp only [langs] at h
    split at h
    · exact absurd h (by simp)
    · next b hb =>
      split at h
      · exact absurd h (by simp)
      · next out2 hout =>
        injection h with h1
        subst h1
        rcases List.mem_cons.mp hc with rfl | h2
        · exact ⟨r, List.mem_cons_self _ _, hb⟩
        · obtain ⟨row, hm, hr⟩ := ih hout h2
          exact ⟨row, List.mem_cons_of_mem _ hm, hr⟩

theorem langs_of_forall {data : List (List Str)}
    (h : ∀ row ∈ data, ∃ b, row[1]? = some b) :
    langs data = .ok (data.map (fun row => (row[1]?).getD [])) := by
  induction data with
  | nil => simp [langs]
  | cons r rest ih =>
    obtain ⟨b, hb⟩ := h r (List.mem_cons_self _ _)
    simp only [langs, List.map_cons, hb, Option.getD_some]
    rw [ih fun row hr => h row (List.mem_cons_of_mem _ hr)]

theorem rows_field0 {row : List Str} {b : Str} (h : row[1]? = some b) :
    ∃ a, row[0]? = some a := by
  cases row with
  | nil => simp at h
  | cons a t => exact ⟨a, by simp⟩

/-! ### takeWhile, dropWhile, strip, split, line and digit lemmas -/

theorem takeWhile_all_append (p : Char → Bool) (l l2 : Str) (h : l.all p = true) :
    List.takeWhile p (l ++ l2) = l ++ List.takeWhile p l2 := by
  induction l with
  | nil => simp
  | cons c rest ih =>
    simp only [List.all_cons, Bool.and_eq_true] at h
    simp [List.takeWhile_cons, h.1, ih h.2]

theorem dropWhile_all_append (p : Char → Bool) (l l2 : Str) (h : l.all p = true) :
    List.dropWhile p (l ++ l2) = List.dropWhile p l2 := by
  induction l with
  | nil => simp
  | cons c rest ih =>
    simp only [List.all_cons, Bool.and_eq_true] at h
    simp [List.dropWhile_cons, h.1, ih h.2]

theorem dropWhile_eq_self_of_all (p : Char → Bool) (l : Str)
    (h : ∀ c ∈ l, p c = false) : List.dropWhile p l = l := by
  cases l with
  | nil => simp
  | cons c rest => simp [List.dropWhile_cons, h c (List.mem_cons_self _ _)]

theorem stripBoth_eq_self (p : Char → Bool) (l : Str) (h : ∀ c ∈ l, p c = false) :
    stripBoth p l = l := by
  unfold stripBoth
  rw [dropWhile_eq_self_of_all p l h,
    dropWhile_eq_self_of_all p l.reverse (fun c hc => h c (List.mem_reverse.mp hc)),
    List.reverse_reverse]

theorem stripBoth_append_one (p : Char → Bool) (tok : Str) (x : Char)
    (hx : p x = true) (h : ∀ c ∈ tok, p c = false) :
    stripBoth p (tok ++ [x]) = tok := by
  cases tok with
  | nil => simp [stripBoth, List.dropWhile_cons, hx]
  | cons c rest =>
    have hc := h c (List.mem_cons_self _ _)
    unfold stripBoth
    rw [List.cons_append, List.dropWhile_cons]
    rw [if_neg (by simp [hc])]
    have hrev : (c :: (rest ++ [x])).reverse = x :: (c :: rest).reverse := by
      rw [← List.cons_append, List.reverse_append]
      rfl
    rw [hrev, List.dropWhile_cons, if_pos (by simp [hx]),
      dropWhile_eq_self_of_all p (c :: rest).reverse
        (fun y hy => h y (List.mem_reverse.mp hy)),
      List.reverse_reverse]

theorem splitCharGo_no_sep (sep : Char) :
    ∀ l acc, (∀ c ∈ l, (c == sep) = false) →
      splitCharGo sep l acc = [acc.reverse ++ l] := by
  intro l
  induction l with
  | nil =>
    intro acc h
    simp [splitCharGo]
  | cons c rest ih =>
    intro acc h
    have hc := h c (List.mem_cons_self _ _)
    simp only [splitCharGo, hc, Bool.false_eq_true, if_neg, reduceIte]
    rw [ih (c :: acc) (fun x hx => h x (List.mem_cons_of_mem _ hx))]
    simp

theorem splitCharGo_sep (sep : Char) :
    ∀ x rest acc, (∀ c ∈ x, (c == sep) = false) →
      splitCharGo sep (x ++ sep :: rest) acc
        = (acc.reverse ++ x) :: splitCharGo sep rest [] := by
  intro x
  induction x with
  | nil =>
    intro rest acc h
    simp [splitCharGo]
  | cons c x2 ih =>
    intro rest acc h
    have hc := h c (List.mem_cons_self _ _)
    rw [List.cons_append]
    simp only [splitCharGo, hc, Bool.false_eq_true, if_neg, reduceIte]
    rw [ih rest (c :: acc) (fun y hy => h y (List.mem_cons_of_mem _ hy))]
    simp

theorem splitChar_no_sep (sep : Char) (l : Str) (h : ∀ c ∈ l, (c == sep) = false) :
    splitChar sep l = [l] := by
  unfold splitChar
  rw [splitCharGo_no_sep sep l [] h]
  rfl

theorem splitChar_sep (sep : Char) (x rest : Str) (h : ∀ c ∈ x, (c == sep) = false) :
    splitChar sep (x ++ sep :: rest) = x :: splitChar sep rest := by
  unfold splitChar
  rw [splitCharGo_sep sep x rest [] h]
  rfl

theorem pyLinesGo_line :
    ∀ body acc rest, (∀ c ∈ body, (c == '\n') = false) →
      pyLinesGo (body ++ '\n' :: rest) acc
        = (acc.reverse ++ body ++ ['\n']) :: pyLinesGo rest [] := by
  intro body
  induction body with
  | nil =>
    intro acc rest h
    simp [pyLinesGo]
  | cons c b2 ih =>
    intro acc rest h
    have hc := h c (List.mem_cons_self _ _)
    rw [List.cons_append]
    simp only [pyLinesGo, hc, Bool.false_eq_true, if_neg, reduceIte]
    rw [ih (c :: acc) rest (fun x hx => h x (List.mem_cons_of_mem _ hx))]
    simp

theorem uNewlines_eq_self : ∀ l : Str, (∀ c ∈ l, (c == '\r') = false) →
    uNewlines l = l := by
  intro l
  induction l with
  | nil => intro h; rfl
  | cons c rest ih =>
    intro h
    have hc : (c == '\r') = false := h c (List.mem_cons_self _ _)
    cases rest with
    | nil => simp [uNewlines, hc]
    | cons d rest2 =>
      have h2 : uNewlines (c :: d :: rest2) = c :: uNewlines (d :: rest2) := by
        simp [uNewlines, hc]
      rw [h2, ih fun x hx => h x (List.mem_cons_of_mem _ hx)]

theorem digit_ne_char {c x : Char} (h : c.isDigit = true)
    (hx : Char.isDigit x = false) : (c == x) = false := by
  cases hc : (c == x) with
  | false => rfl
  | true =>
    have he : c = x := by simpa using hc
    rw [he, hx] at h
    exact absurd h (by simp)

theorem digit_isPySpace {c : Char} (h : c.isDigit = true) : isPySpace c = false := by
  unfold isPySpace
  rw [@digit_ne_char c ' ' h (by decide), @digit_ne_char c '\t' h (by decide),
    @digit_ne_char c '\n' h (by decide), @digit_ne_char c '\r' h (by decide),
    @digit_ne_char c '\x0b' h (by decide), @digit_ne_char c '\x0c' h (by decide)]
  rfl

theorem pyInt_digits {cnt : Str} (hne : cnt ≠ []) (hd : cnt.all Char.isDigit = true) :
    pyInt cnt = .ok ((natOfDigits cnt : Int)) := by
  have htrim : pyTrim cnt = cnt :=
    stripBoth_eq_self _ _ (fun c hc =>
      digit_isPySpace (List.all_eq_true.mp hd c hc))
  unfold pyInt pyTrim at htrim ⊢
  rw [htrim]
  cases cnt with
  | nil => exact absurd rfl hne
  | cons c rest =>
    have hc : c.isDigit = true := List.all_eq_true.mp hd c (List.mem_cons_self _ _)
    have h1 : (c == '-') = false := @digit_ne_char c '-' hc (by decide)
    have h2 : (c == '+') = false := @digit_ne_char c '+' hc (by decide)
    simp [h1, h2, hd]

/-! ### searchNgram lemmas -/

theorem takeWhile_ngramSuffix : List.takeWhile isWordChar ngramSuffix = [] := by decide

theorem dropWhile_ngramSuffix : List.dropWhile isWordChar ngramSuffix = ngramSuffix := by
  decide

theorem searchNgram_full {tok : Str} (hne : tok ≠ []) (hw : tok.all isWordChar = true) :
    searchNgram (tok ++ ngramSuffix) = some (tok ++ ngramSuffix) := by
  cases tok with
  | nil => exact absurd rfl hne
  | cons t ts =>
    have h1 : List.takeWhile isWordChar (t :: (ts ++ ngramSuffix)) = t :: ts := by
      rw [← List.cons_append, takeWhile_all_append isWordChar (t :: ts) ngramSuffix hw,
        takeWhile_ngramSuffix, List.append_nil]
    have h2 : List.dropWhile isWordChar (t :: (ts ++ ngramSuffix)) = ngramSuffix := by
      rw [← List.cons_append, dropWhile_all_append isWordChar (t :: ts) ngramSuffix hw,
        dropWhile_ngramSuffix]
    rw [List.cons_append]
    unfold searchNgram
    rw [h1, h2, if_pos (by simp)]
    rw [List.cons_append]

theorem searchNgram_some_decomp : ∀ l g : Str, searchNgram l = some g →
    ∃ pre tok post, l = pre ++ tok ++ ngramSuffix ++ post ∧ tok ≠ []
      ∧ tok.all isWordChar = true ∧ g = tok ++ ngramSuffix := by
  intro l
  induction l with
  | nil =>
    intro g h
    simp [searchNgram] at h
  | cons c cs ih =>
    intro g h
    unfold searchNgram at h
    split at h
    · next hcond =>
      rw [Bool.and_eq_true] at hcond
      obtain ⟨hrun, hpref⟩ := hcond
      rw [List.isPrefixOf_iff_prefix] at hpref
      obtain ⟨post, hpost⟩ := hpref
      refine ⟨[], List.takeWhile isWordChar (c :: cs), post, ?_, ?_, List.all_takeWhile, ?_⟩
      · rw [List.nil_append, List.append_assoc, hpost, List.takeWhile_append_dropWhile]
      · intro hnil
        rw [hnil] at hrun
        simp at hrun
      · injection h with h2
        rw [h2]
    · obtain ⟨pre, tok, post, hl, hne2, hall, hg⟩ := ih g h
      exact ⟨c :: pre, tok, post, by simp [hl], hne2, hall, hg⟩

theorem searchNgram_isSome_of_decomp : ∀ pre tok post : Str, tok ≠ [] →
    tok.all isWordChar = true →
    (searchNgram (pre ++ tok ++ ngramSuffix ++ post)).isSome = true := by
  intro pre
  induction pre with
  | nil =>
    intro tok post hne hall
    cases tok with
    | nil => exact absurd rfl hne
    | cons t ts =>
      have hsufhead : ngramSuffix ++ post = '-' :: (str "3grams.txt" ++ post) := rfl
      have h1 : List.takeWhile isWordChar (t :: (ts ++ (ngramSuffix ++ post)))
          = t :: ts := by
        rw [← List.cons_append, takeWhile_all_append isWordChar (t :: ts) _ hall,
          hsufhead, List.takeWhile_cons]
        rw [if_neg (by decide)]
        rw [List.append_nil]
      have h2 : List.dropWhile isWordChar (t :: (ts ++ (ngramSuffix ++ post)))
          = ngramSuffix ++ post := by
        rw [← List.cons_append, dropWhile_all_append isWordChar (t :: ts) _ hall,
          hsufhead, List.dropWhile_cons]
        rw [if_neg (by decide)]
      simp only [List.nil_append, List.append_assoc, List.cons_append]
      unfold searchNgram
      rw [h1, h2, if_pos ?_]
      · simp
      · rw [Bool.and_eq_true]
        refine ⟨by simp, ?_⟩
        rw [List.isPrefixOf_iff_prefix]
        exact List.prefix_append _ _
  | cons c pre2 ih =>
    intro tok post hne hall
    simp only [List.cons_append]
    unfold searchNgram
    split
    · simp
    · exact ih tok post hne hall

/-! ### Well-formed n-gram file content -/

/-- One parsed (count, token) pair per file line. -/
abbrev NgramPairs := List (Str × Str)

/-- The file content whose lines are `<count> <token>` followed by a
newline, one line per pair. -/
def catLines : NgramPairs → Str
  | [] => []
  | p :: rest => p.1 ++ ' ' :: (p.2 ++ '\n' :: catLines rest)

/-- Well-formedness of the pairs: each count is a non-empty digit string
and each token is free of spaces, newlines and carriage returns. -/
abbrev WFpairs (pairs : NgramPairs) : Prop :=
  ∀ p ∈ pairs, p.1 ≠ [] ∧ p.1.all Char.isDigit = true ∧
    ∀ c ∈ p.2, (c == ' ') = false ∧ (c == '\n') = false ∧ (c == '\r') = false

/-- The frequency distribution obtained by processing the pairs in order
with Python dict assignment. -/
def ngramFold (pairs : NgramPairs) (d : FreqDist) : FreqDist :=
  pairs.foldl (fun d p => dictSet d p.2 ((natOfDigits p.1 : Int))) d

theorem processNgramLine_wf (counts : FreqDist) (cnt tok : Str)
    (hcne : cnt ≠ []) (hcd : cnt.all Char.isDigit = true)
    (htok : ∀ c ∈ tok, (c == ' ') = false ∧ (c == '\n') = false) :
    processNgramLine counts (cnt ++ ' ' :: (tok ++ ['\n']))
      = .ok (dictSet counts tok ((natOfDigits cnt : Int))) := by
  have hs1 : splitChar ' ' (cnt ++ ' ' :: (tok ++ ['\n']))
      = cnt :: splitChar ' ' (tok ++ ['\n']) :=
    splitChar_sep ' ' cnt _ (fun c hc =>
      digit_ne_char (List.all_eq_true.mp hcd c hc) (by decide))
  have hs2 : splitChar ' ' (tok ++ ['\n']) = [tok ++ ['\n']] :=
    splitChar_no_sep ' ' _ (by
      intro c hc
      rcases List.mem_append.mp hc with h1 | h1
      · exact (htok c h1).1
      · rw [List.mem_singleton.mp h1]
        decide)
  have hstrip : stripNl (tok ++ ['\n']) = tok :=
    stripBoth_append_one _ tok '\n' (by decide) (fun c hc => (htok c hc).2)
  unfold processNgramLine
  rw [hs1, hs2]
  simp only [List.getElem?_cons_succ, List.getElem?_cons_zero]
  rw [pyInt_digits hcne hcd, hstrip]

theorem catLines_no_cr {pairs : NgramPairs} (h : WFpairs pairs) :
    ∀ c ∈ catLines pairs, (c == '\r') = false := by
  induction pairs with
  | nil =>
    intro c hc
    simp [catLines] at hc
  | cons p rest ih =>
    intro c hc
    obtain ⟨hp1, hp2, hp3⟩ := h p (List.mem_cons_self _ _)
    simp only [catLines, List.mem_append, List.mem_cons] at hc
    rcases hc with h1 | rfl | h1 | rfl | h1
    · exact digit_ne_char (List.all_eq_true.mp hp2 c h1) (by decide)
    · decide
    · exact (hp3 c h1).2.2
    · decide
    · exact ih (fun q hq => h q (List.mem_cons_of_mem _ hq)) c h1

theorem pyLines_cat {pairs : NgramPairs} (h : WFpairs pairs) :
    pyLines (catLines pairs) = pairs.map (fun p => p.1 ++ ' ' :: (p.2 ++ ['\n'])) := by
  induction pairs with
  | nil => rfl
  | cons p rest ih =>
    obtain ⟨hp1, hp2, hp3⟩ := h p (List.mem_cons_self _ _)
    have hassoc : catLines (p :: rest)
        = (p.1 ++ ' ' :: p.2) ++ '\n' :: catLines rest := by
      simp [catLines, List.append_assoc]
    have hbody : ∀ c ∈ p.1 ++ ' ' :: p.2, (c == '\n') = false := by
      intro c hc
      rcases List.mem_append.mp hc with h1 | h1
      · exact digit_ne_char (List.all_eq_true.mp hp2 c h1) (by decide)
      · rcases List.mem_cons.mp h1 with rfl | h1
        · decide
        · exact (hp3 c h1).2.1
    unfold pyLines
    rw [hassoc, pyLinesGo_line _ [] (catLines rest) hbody]
    rw [List.map_cons]
    have htail := ih (fun q hq => h q (List.mem_cons_of_mem _ hq))
    unfold pyLines at htail
    rw [htail]
    simp [List.append_assoc]

theorem ngramLoop_lines : ∀ (pairs : NgramPairs) (counts : FreqDist), WFpairs pairs →
    ngramLoop counts (pairs.map (fun p => p.1 ++ ' ' :: (p.2 ++ ['\n'])))
      = .ok (ngramFold pairs counts) := by
  intro pairs
  induction pairs with
  | nil =>
    intro counts h
    rfl
  | cons p rest ih =>
    intro counts h
    obtain ⟨hp1, hp2, hp3⟩ := h p (List.mem_cons_self _ _)
    rw [List.map_cons]
    unfold ngramLoop
    rw [processNgramLine_wf counts p.1 p.2 hp1 hp2 (fun c hc => ⟨(hp3 c hc).1, (hp3 c hc).2.1⟩)]
    show ngramLoop (dictSet counts p.2 ((natOfDigits p.1 : Int)))
        (rest.map (fun p => p.1 ++ ' ' :: (p.2 ++ ['\n']))) = .ok (ngramFold (p :: rest) counts)
    rw [ih _ (fun q hq => h q (List.mem_cons_of_mem _ hq))]
    rfl

theorem ngramLoop_cat (pairs : NgramPairs) (counts : FreqDist) (h : WFpairs pairs) :
    ngramLoop counts (pyLines (uNewlines (catLines pairs))) = .ok (ngramFold pairs counts) := by
  rw [uNewlines_eq_self _ (catLines_no_cr h), pyLines_cat h, ngramLoop_lines pairs counts h]

/-! ### Lookup in the folded distribution -/

theorem ngramFold_get_not_mem {pairs : NgramPairs} {k : Str} (d : FreqDist)
    (h : ∀ q ∈ pairs, q.2 ≠ k) :
    dictGet (ngramFold pairs d) k = dictGet d k := by
  induction pairs generalizing d with
  | nil => rfl
  | cons p rest ih =>
    unfold ngramFold
    rw [List.foldl_cons]
    have := ih (dictSet d p.2 ((natOfDigits p.1 : Int)))
      (fun q hq => h q (List.mem_cons_of_mem _ hq))
    unfold ngramFold at this
    rw [this, dictGet_dictSet_ne _ _ (fun he => (h p (List.mem_cons_self _ _)) he.symm)]

theorem ngramFold_get_mem {pairs : NgramPairs} (d : FreqDist)
    (hnd : ∀ p ∈ pairs, ∀ q ∈ pairs, p.2 = q.2 → p = q) :
    ∀ p ∈ pairs, dictGet (ngramFold pairs d) p.2 = some ((natOfDigits p.1 : Int)) := by
  induction pairs generalizing d with
  | nil =>
    intro p hp
    simp at hp
  | cons h0 rest ih =>
    intro p hp
    rcases List.mem_cons.mp hp with rfl | hp2
    · by_cases hin : p ∈ rest
      · unfold ngramFold
        rw [List.foldl_cons]
        exact ih _ (fun a ha b hb hab =>
          hnd a (List.mem_cons_of_mem _ ha) b (List.mem_cons_of_mem _ hb) hab) p hin
      · have hno : ∀ q ∈ rest, q.2 ≠ p.2 := by
          intro q hq heq
          have hqp := hnd q (List.mem_cons_of_mem _ hq) p (List.mem_cons_self _ _) heq
          exact hin (hqp ▸ hq)
        unfold ngramFold
        rw [List.foldl_cons]
        have := @ngramFold_get_not_mem rest p.2 (dictSet d p.2 ((natOfDigits p.1 : Int))) hno
        unfold ngramFold at this
        rw [this, dictGet_dictSet_self]
    · exact ih _ (fun a ha b hb hab =>
        hnd a (List.mem_cons_of_mem _ ha) b (List.mem_cons_of_mem _ hb) hab) p hp2

/-! ### Reader-level lemmas -/

theorem wordChar_ne_dash {ch : Char} (h : isWordChar ch = true) : (ch == '-') = false := by
  cases hd : (ch == '-') with
  | false => rfl
  | true =>
    have he : ch = '-' := by simpa using hd
    rw [he] at h
    exact absurd h (by decide)

theorem mkReader_ok {isZip : Bool} {fileids : List Str} {fs : PyFS} {r : Reader} {c : Cache}
    (h : mkReader isZip fileids fs [] = (.ok r, c)) :
    r.fileids = fileids ∧ load_all_ngrams r.data fileids fs [] = (.ok (), c) := by
  unfold mkReader at h
  split at h
  · injection h with h1 h2
    exact absurd h1 (by simp)
  · next data hdata =>
    split at h
    · next u c2 hload =>
      injection h with h1 h2
      injection h1 with h3
      subst h3
      subst h2
      exact ⟨rfl, hload⟩
    · next e c2 hload =>
      injection h with h1 h2
      exact absurd h1 (by simp)

theorem load_lang_ngrams_content {data : List (List Str)} {fs : PyFS} {lang : Option Str}
    {cc content : Str}
    (hiso : iso_to_crubadan data lang = .ok (some cc))
    (hisf : fs.isfile (cc ++ ngramSuffix) = true)
    (hread : fs.readFile (cc ++ ngramSuffix) = some content) :
    load_lang_ngrams data fs lang = ngramLoop [] (pyLines (uNewlines content)) := by
  unfold load_lang_ngrams
  split
  · next he =>
    rw [hiso] at he
    exact absurd he (by simp)
  · next cc2 he =>
    rw [hiso] at he
    injection he with he2
    subst he2
    rw [show ccName (some cc) = cc from rfl, if_pos hisf]
    split
    · next hn =>
      rw [hread] at hn
      exact absurd hn (by simp)
    · next content2 hcont =>
      rw [hread] at hcont
      injection hcont with hc2
      subst hc2
      rfl

theorem lang_freq_cache_of_ne {r : Reader} {fs : PyFS} {cache : Cache} {q : Str}
    (h : cache ≠ []) : (lang_freq r fs cache q).2 = cache := by
  cases cache with
  | nil => exact absurd rfl h
  | cons p rest =>
    unfold lang_freq
    rw [if_neg (by simp)]
    split
    · next e c3 heq =>
      injection heq with h1 h2
      exact absurd h1 (by simp)
    · next a c3 heq =>
      injection heq with h1 h2
      subst h2
      split
      · rfl
      · rfl

theorem runQueries_of_ne {r : Reader} {fs : PyFS} :
    ∀ (qs : List Str) (cache : Cache), cache ≠ [] → runQueries r fs qs cache = cache := by
  intro qs
  induction qs with
  | nil =>
    intro c h
    rfl
  | cons q qs2 ih =>
    intro c h
    unfold runQueries
    rw [lang_freq_cache_of_ne h, ih c h]

theorem lang_freq_cache_keys {r : Reader} {fs : PyFS} {cache : Cache} {q : Str} :
    ∀ s, dictHasKey (lang_freq r fs cache q).2 (some s) = true →
      dictHasKey cache (some s) = true ∨ ∃ row, row ∈ r.data ∧ row[1]? = some s := by
  intro s hs
  unfold lang_freq at hs
  by_cases hc : cache.isEmpty = true
  · rw [if_pos hc] at hs
    split at hs
    · next e c3 heq =>
      exact loadAllGo_keys _ _ _ _ heq s hs
    · next a c3 heq =>
      split at hs
      · exact loadAllGo_keys _ _ _ _ heq s hs
      · exact loadAllGo_keys _ _ _ _ heq s hs
  · rw [if_neg hc] at hs
    split at hs
    · next e c3 heq =>
      injection heq with h1 h2
      exact absurd h1 (by simp)
    · next a c3 heq =>
      injection heq with h1 h2
      subst h2
      split at hs
      · exact Or.inl hs
      · exact Or.inl hs

theorem runQueries_keys {r : Reader} {fs : PyFS} :
    ∀ (qs : List Str) (cache : Cache),
      (∀ s, dictHasKey cache (some s) = true → ∃ row, row ∈ r.data ∧ row[1]? = some s) →
      ∀ s, dictHasKey (runQueries r fs qs cache) (some s) = true →
        ∃ row, row ∈ r.data ∧ row[1]? = some s := by
  intro qs
  induction qs with
  | nil =>
    intro c hInv s hs
    exact hInv s hs
  | cons q qs2 ih =>
    intro c hInv s hs
    unfold runQueries at hs
    apply ih _ ?_ s hs
    intro s2 hs2
    rcases lang_freq_cache_keys s2 hs2 with h1 | h1
    · exact hInv s2 h1
    · exact h1

/-! ### Concrete fixtures used by the claim theorems -/

/-- A root with a mapping for `crh` only, plus an n-gram file `zzz-3grams.txt`
whose internal code has no mapping entry. -/
def fsUnmapped : PyFS :=
  ⟨[(str "table.txt", str "crh\tcrh"), (str "zzz-3grams.txt", str "1 ab\n"),
    (str "crh-3grams.txt", str "5 the\n")]⟩

def fidsUnmapped : List Str := [str "table.txt", str "zzz-3grams.txt", str "crh-3grams.txt"]

/-- A root whose listing mentions `crh-3grams.txt` but where that file does
not exist on disk. -/
def fsMissing : PyFS := ⟨[(str "table.txt", str "crh\tcrh")]⟩

def fidsMissing : List Str := [str "table.txt", str "crh-3grams.txt"]

/-- A healthy single-language root: mapping `crh -> crh` and an n-gram file. -/
def fsCrh : PyFS :=
  ⟨[(str "table.txt", str "crh\tcrh"), (str "crh-3grams.txt", str "5 the\n")]⟩

def fidsCrh : List Str := [str "table.txt", str "crh-3grams.txt"]

def cacheCrh : Cache := [(some (str "crh"), [(str "the", 5)])]

/-! ### Claim theorems -/

/-- C1: the claim states that during bulk loading an n-gram file whose
internal code has no mapping entry is silently skipped (no cache entry, no
error, remaining files still loaded).  The code instead passes the `None`
returned by `crubadan_to_iso` into `_load_lang_ngrams`, where
`iso_to_crubadan` evaluates `lang.lower()` on `None`: with the discovered
file `zzz-3grams.txt` unmapped, construction aborts with an
`AttributeError` before the mapped `crh-3grams.txt` is loaded, and the
cache stays empty.  This theorem evaluates the reader at that failing
input, exhibiting the divergence from the claim (a code bug: the spec's
stated skip-and-continue contract is the evident intent of the
scan-and-filter loop). -/
theorem c1_unmapped_bulk_file_raises :
    mkReader false fidsUnmapped fsUnmapped []
      = (.error (.attributeError (str "NoneType object has no attribute lower")), []) := rfl

/-- C2: requesting `lang_freq` for an ISO code with no entry in the
reader's mapping table fails with the "language not found" error, realised
by the code as the dict `KeyError` on `all_lang_freq` (the spec's
`LanguageNotFound` covers exactly this "no cached frequency data" case):
for any reader successfully constructed from an empty cache, and any code
that matches no row's ISO field even case-insensitively, `lang_freq`
returns `KeyError`. -/
theorem c2_lang_freq_unmapped_keyError
    (isZip : Bool) (fileids : List Str) (fs : PyFS) (r : Reader) (c : Cache) (lang : Str)
    (hmk : mkReader isZip fileids fs [] = (.ok r, c))
    (hno : ∀ row ∈ r.data, ∀ b, row[1]? = some b → lcLower b ≠ lcLower lang) :
    (lang_freq r fs c lang).1 = .error (.keyError lang) := by
  obtain ⟨hfid, hload⟩ := mkReader_ok hmk
  have hkeys : ∀ s, dictHasKey c (some s) = true →
      ∃ row, row ∈ r.data ∧ row[1]? = some s := by
    intro s hs
    rcases loadAllGo_keys _ _ _ _ hload s hs with h1 | h1
    · simp [dictHasKey] at h1
    · exact h1
  have hnokey : dictHasKey c (some lang) = false := by
    cases hk : dictHasKey c (some lang) with
    | false => rfl
    | true =>
      obtain ⟨row, hmem, hrow⟩ := hkeys lang hk
      exact absurd rfl (hno row hmem lang hrow)
  unfold lang_freq
  by_cases hc : c.isEmpty = true
  · rw [if_pos hc]
    have hcnil : c = [] := by
      cases c with
      | nil => rfl
      | cons a b => simp at hc
    subst hcnil
    rw [hfid, hload]
    rfl
  · rw [if_neg hc]
    have hg : dictGet c (some lang) = none := (dictGet_eq_none_iff c (some lang)).mpr hnokey
    split
    · next e c3 heq =>
      injection heq with h1 h2
      exact absurd h1 (by simp)
    · next a c3 heq =>
      injection heq with h1 h2
      subst h2
      rw [hg]

/-- C2 witness: a concrete reader over the `crh` corpus, queried for the
unmapped code `xyz`. -/
theorem c2_witness :
    (lang_freq ⟨[[str "crh", str "crh"]], fidsCrh⟩ fsCrh cacheCrh (str "xyz")).1
      = .error (.keyError (str "xyz")) :=
  c2_lang_freq_unmapped_keyError false fidsCrh fsCrh
    ⟨[[str "crh", str "crh"]], fidsCrh⟩ cacheCrh (str "xyz") rfl
    (by
      intro row hrow b hb
      rw [List.mem_singleton] at hrow
      subst hrow
      simp only [List.getElem?_cons_succ, List.getElem?_cons_zero, Option.some.injEq] at hb
      subst hb
      decide)

/-- C3: the claim states a direct `_load_lang_ngrams` on a mapped code
whose n-gram file is missing fails with the file-not-found
(`NgramFileMissing`) error, while the same file met during bulk load is
silently omitted.  The omission half holds, but the direct load executes
`raise Runtime(...)` where `Runtime` is an undefined name, so Python
raises a `NameError` instead of the intended
`RuntimeError("Could not find language n-gram file ...")` — a code bug
(the error-message string in the source shows the intent).  Conjunct 1
evaluates the direct load at the failing input (mapped code `crh`, file
absent) to the `NameError`; conjunct 2 shows the bulk load over the same
root succeeds with the language silently absent from the cache. -/
theorem c3_missing_file_raises_nameError :
    load_lang_ngrams [[str "crh", str "crh"]] fsMissing (some (str "crh"))
      = .error (.nameError (str "Runtime"))
    ∧ mkReader false fidsMissing fsMissing []
      = (.ok ⟨[[str "crh", str "crh"]], fidsMissing⟩, []) :=
  ⟨rfl, rfl⟩

/-- Root for language `aaa` only, used by the C4 counterexample. -/
def fsLangA : PyFS :=
  ⟨[(str "table.txt", str "aaa\taaa"), (str "aaa-3grams.txt", str "1 ab\n")]⟩

def fidsLangA : List Str := [str "table.txt", str "aaa-3grams.txt"]

/-- Root for language `bbb` only, used by the C4 counterexample. -/
def fsLangB : PyFS :=
  ⟨[(str "table.txt", str "bbb\tbbb"), (str "bbb-3grams.txt", str "2 cd\n")]⟩

def fidsLangB : List Str := [str "table.txt", str "bbb-3grams.txt"]

/-- C4 counterexample: the claim quantifies over ANY sequence of reader
constructions, but `all_lang_freq` is a class-level dictionary shared by
all readers.  Constructing a reader over a root that maps only `aaa`, and
then a second reader over a different root that maps only `bbb`, leaves
the shared cache holding the key `aaa` while the second (current) reader's
mapping table has no row whose ISO field is `aaa` — the invariant fails
for the second reader. -/
theorem c4_counterexample :
    (mkReader false fidsLangB fsLangB (mkReader false fidsLangA fsLangA []).2).1
      = .ok ⟨[[str "bbb", str "bbb"]], fidsLangB⟩
    ∧ dictHasKey (mkReader false fidsLangB fsLangB (mkReader false fidsLangA fsLangA []).2).2
        (some (str "aaa")) = true
    ∧ ∀ row ∈ [[str "bbb", str "bbb"]], row[1]? ≠ some (str "aaa") := by
  refine ⟨rfl, rfl, ?_⟩
  decide

/-- C4 amended: restricted to a single reader constructed from an empty
cache, followed by any sequence of `lang_freq` calls on it.  Forward
direction: every ISO code appearing as a cache key has a row in that
reader's mapping table with exactly that ISO field.  Converse: a mapped
code appears as a cache key provided its internal code is a non-empty run
of word characters (so the file name fully matches the bulk pattern), the
`crubadan_to_iso` scan of the table resolves that internal code to it
(first-match, case-insensitive), and its n-gram file is both in the
reader's file listing and present on disk. -/
theorem c4_cache_table_invariant
    (isZip : Bool) (fileids : List Str) (fs : PyFS) (r : Reader) (c : Cache) (qs : List Str)
    (hmk : mkReader isZip fileids fs [] = (.ok r, c)) :
    (∀ s, dictHasKey (runQueries r fs qs c) (some s) = true →
       ∃ row, row ∈ r.data ∧ row[1]? = some s)
    ∧ (∀ cc iso, cc ≠ [] → cc.all isWordChar = true →
        crubadan_to_iso r.data cc = .ok (some iso) →
        (cc ++ ngramSuffix) ∈ fileids → fs.isfile (cc ++ ngramSuffix) = true →
        dictHasKey (runQueries r fs qs c) (some iso) = true) := by
  obtain ⟨hfid, hload⟩ := mkReader_ok hmk
  unfold load_all_ngrams at hload
  constructor
  · apply runQueries_keys qs c
    intro s hs
    rcases loadAllGo_keys _ _ _ _ hload s hs with h1 | h1
    · simp [dictHasKey] at h1
    · exact h1
  · intro cc iso hne hw hcru hmem hisf
    have hsearch : searchNgram (cc ++ ngramSuffix) = some (cc ++ ngramSuffix) :=
      searchNgram_full hne hw
    have hvf : (cc ++ ngramSuffix) ∈ validFiles fileids :=
      List.mem_filterMap.mpr ⟨cc ++ ngramSuffix, hmem, hsearch⟩
    have hccdash : ∀ ch ∈ cc, (ch == '-') = false :=
      fun ch hch => wordChar_ne_dash (List.all_eq_true.mp hw ch hch)
    have hhead : (splitChar '-' (cc ++ ngramSuffix)).headD [] = cc := by
      have hsfx : cc ++ ngramSuffix = cc ++ '-' :: str "3grams.txt" := rfl
      rw [hsfx, splitChar_sep '-' cc (str "3grams.txt") hccdash]
      rfl
    have hkey : dictHasKey c (some iso) = true := by
      apply loadAllGo_mem (validFiles fileids) [] c (cc ++ ngramSuffix) (some iso) hload hvf hisf
      rw [hhead]
      exact hcru
    have hcne : c ≠ [] := by
      intro hnil
      rw [hnil] at hkey
      simp [dictHasKey] at hkey
    rw [runQueries_of_ne qs c hcne]
    exact hkey

/-- C4 witness: the single-language `crh` corpus, one construction from an
empty cache followed by one `lang_freq` query; the mapped code `crh`
appears as a cache key afterwards. -/
theorem c4_witness :
    dictHasKey (runQueries ⟨[[str "crh", str "crh"]], fidsCrh⟩ fsCrh [str "crh"] cacheCrh)
      (some (str "crh")) = true :=
  (c4_cache_table_invariant false fidsCrh fsCrh ⟨[[str "crh", str "crh"]], fidsCrh⟩
      cacheCrh [str "crh"] rfl).2 (str "crh") (str "crh")
    (by decide) (by decide) rfl (by decide) rfl

/-- The `iso_to_crubadan` scan, run on a table with no duplicate ISO codes
(case-insensitively) that contains a row carrying the requested code,
returns that row's internal code. -/
theorem iso_to_crubadan_finds {data : List (List Str)} {code : Str} :
    ∀ {row2 : List Str}, (∀ row ∈ data, ∃ b, row[1]? = some b) →
    row2 ∈ data → row2[1]? = some code →
    (∀ r1 ∈ data, ∀ r2 ∈ data,
       lcLower ((r1[1]?).getD []) = lcLower ((r2[1]?).getD []) → r1 = r2) →
    ∃ ic, iso_to_crubadan data (some code) = .ok (some ic)
      ∧ ∃ rj, rj ∈ data ∧ rj[0]? = some ic ∧ rj[1]? = some code := by
  induction data with
  | nil =>
    intro row2 _ hmem _ _
    simp at hmem
  | cons h0 rest ih =>
    intro row2 hall hmem hcode hnd
    obtain ⟨b, hb⟩ := hall h0 (List.mem_cons_self _ _)
    by_cases heq : lcLower b = lcLower code
    · have hrr : h0 = row2 :=
        hnd h0 (List.mem_cons_self _ _) row2 hmem (by rw [hb, hcode]; simpa using heq)
      have hbc : b = code := by
        rw [hrr] at hb
        rw [hb] at hcode
        injection hcode
      obtain ⟨a, ha⟩ := rows_field0 hb
      refine ⟨a, ?_, h0, List.mem_cons_self _ _, ?_, ?_⟩
      · simp only [iso_to_crubadan, hb]
        rw [if_pos heq]
        simp only [ha]
      · rw [hrr] at ha
        rw [hrr]
        exact ha
      · rw [hrr] at hb
        rw [hrr, hb, hbc]
    · have hr2 : row2 ∈ rest := by
        rcases List.mem_cons.mp hmem with rfl | h2
        · rw [hb] at hcode
          injection hcode with hbc
          rw [hbc] at heq
          exact absurd rfl heq
        · exact h2
      obtain ⟨ic, hic, rj, hrj, hrj0, hrj1⟩ :=
        ih (fun row hr => hall row (List.mem_cons_of_mem _ hr)) hr2 hcode
          (fun r1 hh1 r2 hh2 =>
            hnd r1 (List.mem_cons_of_mem _ hh1) r2 (List.mem_cons_of_mem _ hh2))
      refine ⟨ic, ?_, rj, List.mem_cons_of_mem _ hrj, hrj0, hrj1⟩
      simp only [iso_to_crubadan, hb]
      rw [if_neg heq]
      exact hic

/-- The `crubadan_to_iso` scan, run on a table with no duplicate internal
codes (case-insensitively) that contains a row carrying the requested
internal code, returns that row's ISO code. -/
theorem crubadan_to_iso_finds {data : List (List Str)} {ic code : Str} :
    ∀ {rj : List Str}, (∀ row ∈ data, ∃ b, row[1]? = some b) →
    rj ∈ data → rj[0]? = some ic → rj[1]? = some code →
    (∀ r1 ∈ data, ∀ r2 ∈ data,
       lcLower ((r1[0]?).getD []) = lcLower ((r2[0]?).getD []) → r1 = r2) →
    crubadan_to_iso data ic = .ok (some code) := by
  induction data with
  | nil =>
    intro rj _ hmem _ _ _
    simp at hmem
  | cons h0 rest ih =>
    intro rj hall hmem h0ic h1code hnd
    obtain ⟨b0, hb0⟩ := hall h0 (List.mem_cons_self _ _)
    obtain ⟨a0, ha0⟩ := rows_field0 hb0
    by_cases heq : lcLower a0 = lcLower ic
    · have hr : h0 = rj :=
        hnd h0 (List.mem_cons_self _ _) rj hmem (by rw [ha0, h0ic]; simpa using heq)
      simp only [crubadan_to_iso, ha0]
      rw [if_pos heq, hr]
      simp only [h1code]
    · have hrj2 : rj ∈ rest := by
        rcases List.mem_cons.mp hmem with rfl | h2
        · rw [ha0] at h0ic
          injection h0ic with hai
          rw [hai] at heq
          exact absurd rfl heq
        · exact h2
      have hrec := ih (fun row hr => hall row (List.mem_cons_of_mem _ hr)) hrj2 h0ic h1code
        (fun r1 hh1 r2 hh2 =>
          hnd r1 (List.mem_cons_of_mem _ hh1) r2 (List.mem_cons_of_mem _ hh2))
      simp only [crubadan_to_iso, ha0]
      rw [if_neg heq]
      exact hrec

/-- C5: for every ISO code in the list returned by `langs()`, provided the
mapping table contains no (case-insensitively) duplicate internal or ISO
codes — stated as: any two rows agreeing on the lowered field are the same
row — `iso_to_crubadan` followed by `crubadan_to_iso` returns the original
code exactly. -/
theorem c5_roundtrip (data : List (List Str)) (codes : List Str) (code : Str)
    (hl : langs data = .ok codes) (hc : code ∈ codes)
    (hnd0 : ∀ r1 ∈ data, ∀ r2 ∈ data,
       lcLower ((r1[0]?).getD []) = lcLower ((r2[0]?).getD []) → r1 = r2)
    (hnd1 : ∀ r1 ∈ data, ∀ r2 ∈ data,
       lcLower ((r1[1]?).getD []) = lcLower ((r2[1]?).getD []) → r1 = r2) :
    ∃ ic, iso_to_crubadan data (some code) = .ok (some ic)
      ∧ crubadan_to_iso data ic = .ok (some code) := by
  have hall := langs_ok_forall hl
  obtain ⟨row2, hmem, hrow2⟩ := langs_ok_mem hl hc
  obtain ⟨ic, hic, rj, hrj, hrj0, hrj1⟩ := iso_to_crubadan_finds hall hmem hrow2 hnd1
  exact ⟨ic, hic, crubadan_to_iso_finds hall hrj hrj0 hrj1 hnd0⟩

/-- C5 witness: the two-language table `crh/crh`, `eng/eng` and the code
`eng` from `langs()`. -/
theorem c5_witness :
    ∃ ic, iso_to_crubadan [[str "crh", str "crh"], [str "eng", str "eng"]]
        (some (str "eng")) = .ok (some ic)
      ∧ crubadan_to_iso [[str "crh", str "crh"], [str "eng", str "eng"]] ic
        = .ok (some (str "eng")) :=
  c5_roundtrip [[str "crh", str "crh"], [str "eng", str "eng"]]
    [str "crh", str "eng"] (str "eng") rfl (by decide) (by decide) (by decide)

/-- The `crh` corpus whose n-gram file contains the two lines `5 the` and
`3 and` of the spec's example (no trailing newline on the last line). -/
def fsTwoLines : PyFS :=
  ⟨[(str "table.txt", str "crh\tcrh"), (str "crh-3grams.txt", str "5 the\n3 and")]⟩

def fidsTwoLines : List Str := [str "table.txt", str "crh-3grams.txt"]

def cacheTwoLines : Cache := [(some (str "crh"), [(str "the", 5), (str "and", 3)])]

/-- The spec-example file content as structured (count, token) pairs. -/
def pairsExample : NgramPairs := [(str "5", str "the"), (str "3", str "and")]

/-- The `crh` corpus whose n-gram file is the newline-terminated rendering
of `pairsExample`. -/
def fsPairs : PyFS :=
  ⟨[(str "table.txt", str "crh\tcrh"), (str "crh-3grams.txt", catLines pairsExample)]⟩

/-- C6: (general) for every n-gram file whose lines each have the form
`<integer_count><space><ngram_token>` (count a non-empty digit string,
token free of spaces and newlines), loading yields the frequency
distribution built by assigning each token its base-10 count in line
order; with distinct tokens, looking up each token returns exactly its
count.  (particular) The reader over a `crh-3grams.txt` containing
`5 the` and `3 and` yields, via `lang_freq "crh"`, a distribution with
`counts["the"] == 5` and `counts["and"] == 3`. -/
theorem c6_ngram_parse :
    (∀ (data : List (List Str)) (fs : PyFS) (lang : Option Str) (cc : Str)
       (pairs : NgramPairs),
      iso_to_crubadan data lang = .ok (some cc) →
      fs.isfile (cc ++ ngramSuffix) = true →
      fs.readFile (cc ++ ngramSuffix) = some (catLines pairs) →
      WFpairs pairs →
      load_lang_ngrams data fs lang = .ok (ngramFold pairs [])
      ∧ ((∀ p ∈ pairs, ∀ q ∈ pairs, p.2 = q.2 → p = q) →
          ∀ p ∈ pairs, dictGet (ngramFold pairs []) p.2
            = some ((natOfDigits p.1 : Int))))
    ∧ (mkReader false fidsTwoLines fsTwoLines []
        = (.ok ⟨[[str "crh", str "crh"]], fidsTwoLines⟩, cacheTwoLines)
       ∧ (lang_freq ⟨[[str "crh", str "crh"]], fidsTwoLines⟩ fsTwoLines cacheTwoLines
            (str "crh")).1 = .ok [(str "the", 5), (str "and", 3)]
       ∧ dictGet [(str "the", (5 : Int)), (str "and", 3)] (str "the") = some 5
       ∧ dictGet [(str "the", (5 : Int)), (str "and", 3)] (str "and") = some 3) := by
  constructor
  · intro data fs lang cc pairs hiso hisf hread hwf
    constructor
    · rw [load_lang_ngrams_content hiso hisf hread]
      exact ngramLoop_cat pairs [] hwf
    · intro hnd p hp
      exact ngramFold_get_mem [] hnd p hp
  · exact ⟨rfl, rfl, rfl, rfl⟩

/-- C6 witness: the general statement applied to the example pairs. -/
theorem c6_witness :
    load_lang_ngrams [[str "crh", str "crh"]] fsPairs (some (str "crh"))
      = .ok (ngramFold pairsExample [])
    ∧ dictGet (ngramFold pairsExample []) (str "the") = some 5
    ∧ dictGet (ngramFold pairsExample []) (str "and") = some 3 :=
  ⟨(c6_ngram_parse.1 [[str "crh", str "crh"]] fsPairs (some (str "crh")) (str "crh")
      pairsExample rfl rfl rfl (by decide)).1,
   (c6_ngram_parse.1 [[str "crh", str "crh"]] fsPairs (some (str "crh")) (str "crh")
      pairsExample rfl rfl rfl (by decide)).2 (by decide) (str "5", str "the") (by decide),
   (c6_ngram_parse.1 [[str "crh", str "crh"]] fsPairs (some (str "crh")) (str "crh")
      pairsExample rfl rfl rfl (by decide)).2 (by decide) (str "3", str "and") (by decide)⟩

/-- The mapping file of the C7 example, a root with no n-gram files at
all. -/
def fsMapOnly : PyFS := ⟨[(str "table.txt", str "crh\tcrh\neng\teng")]⟩

/-- C7: (general) whenever every row of the loaded mapping table has a
second field, `langs()` returns exactly the second field of each row in
row order — it consults neither the cache nor the filesystem, so the list
is unfiltered by the existence of n-gram files.  (particular) A reader
over a root with mapping lines `crh\tcrh` and `eng\teng` and no n-gram
file at all constructs successfully with an empty cache, and `langs`
returns `["crh", "eng"]`. -/
theorem c7_langs_in_order :
    (∀ data : List (List Str), (∀ row ∈ data, (row[1]?).isSome = true) →
      langs data = .ok (data.map (fun row => (row[1]?).getD [])))
    ∧ (mkReader false [str "table.txt"] fsMapOnly []
        = (.ok ⟨[[str "crh", str "crh"], [str "eng", str "eng"]], [str "table.txt"]⟩, [])
       ∧ langs [[str "crh", str "crh"], [str "eng", str "eng"]]
          = .ok [str "crh", str "eng"]) :=
  ⟨fun _ h =>
    langs_of_forall (fun row hr => Option.isSome_iff_exists.mp (h row hr)),
   rfl, rfl⟩

/-- C7 witness: the general statement applied to the example table. -/
theorem c7_witness :
    langs [[str "crh", str "crh"], [str "eng", str "eng"]]
      = .ok ([[str "crh", str "crh"], [str "eng", str "eng"]].map
          (fun row => (row[1]?).getD [])) :=
  c7_langs_in_order.1 [[str "crh", str "crh"], [str "eng", str "eng"]] (by decide)

/-- C8 counterexample: `re.search` matches anywhere in the file name, so
bulk load selects `ab-cd-3grams.txt` even though the whole name does not
match `<token>-3grams.txt` (a token cannot contain `-`), and the entry it
selects is the matched substring `cd-3grams.txt`, whose derived internal
code `cd` differs from `ab`, the portion of the file name before its first
hyphen. -/
theorem c8_counterexample :
    validFiles [str "ab-cd-3grams.txt"] = [str "cd-3grams.txt"]
    ∧ specFullMatch (str "ab-cd-3grams.txt") = false
    ∧ (splitChar '-' (str "cd-3grams.txt")).headD [] = str "cd"
    ∧ (splitChar '-' (str "ab-cd-3grams.txt")).headD [] = str "ab"
    ∧ str "cd" ≠ str "ab" := by
  refine ⟨rfl, rfl, rfl, rfl, ?_⟩
  decide

/-- C8 amended: (a) for a file name that fully matches the pattern
`<token>-3grams.txt` (token a non-empty run of word characters), the
search returns the whole name and the derived internal code is the portion
before the first hyphen, i.e. the token; (b) in general a file name is
selected if and only if it CONTAINS a non-empty word-character run
immediately followed by `-3grams.txt` (the `re.search` semantics), the
selected entry being the matched substring — so the mapping file
`table.txt`, containing no such substring, is never selected. -/
theorem c8_bulk_selection :
    (∀ l : Str, specFullMatch l = true →
       searchNgram l = some l
       ∧ (splitChar '-' l).headD [] = l.take (l.length - 11))
    ∧ (∀ l : Str, (searchNgram l).isSome = true ↔
         ∃ pre tok post, l = pre ++ tok ++ ngramSuffix ++ post ∧ tok ≠ []
           ∧ tok.all isWordChar = true) := by
  constructor
  · intro l hspec
    unfold specFullMatch at hspec
    rw [Bool.and_eq_true, Bool.and_eq_true] at hspec
    obtain ⟨⟨hsuf, hne⟩, hall⟩ := hspec
    have hsuf2 : l.drop (l.length - 11) = ngramSuffix := by simpa using hsuf
    have hne2 : l.take (l.length - 11) ≠ [] := by simpa using hne
    have hdecomp : l = l.take (l.length - 11) ++ ngramSuffix := by
      conv_lhs => rw [← List.take_append_drop (l.length - 11) l]
      rw [hsuf2]
    constructor
    · have hfull := searchNgram_full hne2 hall
      rw [← hdecomp] at hfull
      exact hfull
    · have hccdash : ∀ ch ∈ l.take (l.length - 11), (ch == '-') = false :=
        fun ch hch => wordChar_ne_dash (List.all_eq_true.mp hall ch hch)
      have h2 : splitChar '-' (l.take (l.length - 11) ++ '-' :: str "3grams.txt")
          = l.take (l.length - 11) :: splitChar '-' (str "3grams.txt") :=
        splitChar_sep '-' _ _ hccdash
      have h3 : splitChar '-' l
          = l.take (l.length - 11) :: splitChar '-' (str "3grams.txt") := by
        conv_lhs => rw [hdecomp]
        exact h2
      rw [h3]
      rfl
  · intro l
    constructor
    · intro h
      cases hs : searchNgram l with
      | none =>
        rw [hs] at h
        simp at h
      | some g =>
        obtain ⟨pre, tok, post, hl, hne, hall, hg⟩ := searchNgram_some_decomp l g hs
        exact ⟨pre, tok, post, hl, hne, hall⟩
    · rintro ⟨pre, tok, post, hl, hne, hall⟩
      rw [hl]
      exact searchNgram_isSome_of_decomp pre tok post hne hall

/-- C8 witness: the fully matching name `abc-3grams.txt`. -/
theorem c8_witness :
    specFullMatch (str "abc-3grams.txt") = true
    ∧ searchNgram (str "abc-3grams.txt") = some (str "abc-3grams.txt")
    ∧ (splitChar '-' (str "abc-3grams.txt")).headD []
        = (str "abc-3grams.txt").take ((str "abc-3grams.txt").length - 11) :=
  ⟨by decide, (c8_bulk_selection.1 (str "abc-3grams.txt") (by decide)).1,
    (c8_bulk_selection.1 (str "abc-3grams.txt") (by decide)).2⟩

/-- The mapping file with a tab-less second line, for C9. -/
def fsBadLine : PyFS := ⟨[(str "table.txt", str "crh\tcrh\nbad")]⟩

/-- A well-formed single-line mapping file, for the C9 witness. -/
def fsOneLine : PyFS := ⟨[(str "table.txt", str "crh\tcrh")]⟩

/-- C9: (only-if) whenever the mapping file loads and `langs()` returns
normally, every line of the (stripped) mapping content contains a tab —
because `langs` unconditionally reads the second field of every row, which
for a tab-less line does not exist.  (existence) For the mapping content
`crh\tcrh\nbad`, whose second line has no tab, the mapping loads to a
table containing the one-field row `["bad"]` and `langs` fails with an
`IndexError` instead of returning a list. -/
theorem c9_langs_requires_tabs :
    (∀ (isZip : Bool) (fileids : List Str) (fs : PyFS) (content : Str)
       (data : List (List Str)) (out : List Str) (line : Str),
      fs.readFile LANG_MAPPER_FILE = some content →
      load_lang_mapping_data isZip fileids fs = .ok data →
      langs data = .ok out →
      line ∈ splitChar '\n' (pyTrim (uNewlines content)) →
      '\t' ∈ line)
    ∧ (load_lang_mapping_data false [str "table.txt"] fsBadLine
        = .ok [[str "crh", str "crh"], [str "bad"]]
       ∧ langs [[str "crh", str "crh"], [str "bad"]] = .error .indexError) := by
  constructor
  · intro isZip fileids fs content data out line hread hload hlangs hline
    unfold load_lang_mapping_data at hload
    split at hload
    · exact absurd hload (by simp)
    · split at hload
      · split at hload
        · exact absurd hload (by simp)
        · next raw hraw =>
          rw [hread] at hraw
          injection hraw with hcr
          subst hcr
          injection hload with hdata
          subst hdata
          have hall := langs_ok_forall hlangs
          have hrow : splitChar '\t' line
              ∈ (splitChar '\n' (pyTrim (uNewlines content))).map (splitChar '\t') :=
            List.mem_map_of_mem _ hline
          obtain ⟨b, hb⟩ := hall _ hrow
          by_contra hno
          have hone : splitChar '\t' line = [line] := by
            apply splitChar_no_sep '\t' line
            intro ch hch
            cases hh : (ch == '\t') with
            | false => rfl
            | true =>
              have he : ch = '\t' := by simpa using hh
              rw [he] at hch
              exact absurd hch hno
          rw [hone] at hb
          simp at hb
      · exact absurd hload (by simp)
  · exact ⟨rfl, rfl⟩

/-- C9 witness: the only-if direction at a well-formed one-line mapping
file; its single line indeed contains a tab. -/
theorem c9_witness : '\t' ∈ str "crh\tcrh" :=
  c9_langs_requires_tabs.1 false [str "table.txt"] fsOneLine (str "crh\tcrh")
    [[str "crh", str "crh"]] [str "crh"] (str "crh\tcrh") rfl rfl rfl (by decide)

/-- A root holding an n-gram file whose only line is `7 x y z`: the token
region contains a second space. -/
def fsSpaceTok : PyFS := ⟨[(str "crh-3grams.txt", str "7 x y z\n")]⟩

/-- C10: for an n-gram file line whose token part contains a space, the
loaded distribution keys only the text strictly between the first and
second spaces of the line (`line.split(' ')[1]`); everything after the
second space is silently dropped and no error is raised.  Stated for a
one-line file `<count> <a> <b>` with `a` space-free: the resulting
distribution is exactly `[(a, count)]`. -/
theorem c10_space_in_token
    (data : List (List Str)) (fs : PyFS) (lang : Option Str) (cc cnt a b : Str)
    (hiso : iso_to_crubadan data lang = .ok (some cc))
    (hisf : fs.isfile (cc ++ ngramSuffix) = true)
    (hread : fs.readFile (cc ++ ngramSuffix)
      = some (cnt ++ ' ' :: (a ++ ' ' :: (b ++ ['\n']))))
    (hcne : cnt ≠ []) (hcd : cnt.all Char.isDigit = true)
    (ha : ∀ c ∈ a, (c == ' ') = false ∧ (c == '\n') = false ∧ (c == '\r') = false)
    (hb : ∀ c ∈ b, (c == '\n') = false ∧ (c == '\r') = false) :
    load_lang_ngrams data fs lang = .ok [(a, (natOfDigits cnt : Int))] := by
  rw [load_lang_ngrams_content hiso hisf hread]
  have hnocr : ∀ c ∈ cnt ++ ' ' :: (a ++ ' ' :: (b ++ ['\n'])), (c == '\r') = false := by
    intro c hc
    simp only [List.mem_append, List.mem_cons] at hc
    rcases hc with h1 | rfl | h1 | rfl | h1 | rfl | h1
    · exact digit_ne_char (List.all_eq_true.mp hcd c h1) (by decide)
    · decide
    · exact (ha c h1).2.2
    · decide
    · exact (hb c h1).2
    · decide
    · simp at h1
  rw [uNewlines_eq_self _ hnocr]
  have hbody : ∀ c ∈ cnt ++ ' ' :: (a ++ ' ' :: b), (c == '\n') = false := by
    intro c hc
    simp only [List.mem_append, List.mem_cons] at hc
    rcases hc with h1 | rfl | h1 | rfl | h1
    · exact digit_ne_char (List.all_eq_true.mp hcd c h1) (by decide)
    · decide
    · exact (ha c h1).2.1
    · decide
    · exact (hb c h1).1
  have hassoc : cnt ++ ' ' :: (a ++ ' ' :: (b ++ ['\n']))
      = (cnt ++ ' ' :: (a ++ ' ' :: b)) ++ '\n' :: [] := by
    simp
  have hlines : pyLines (cnt ++ ' ' :: (a ++ ' ' :: (b ++ ['\n'])))
      = [cnt ++ ' ' :: (a ++ ' ' :: (b ++ ['\n']))] := by
    unfold pyLines
    rw [hassoc, pyLinesGo_line _ [] [] hbody]
    simp [pyLinesGo]
  rw [hlines]
  have hs1 : splitChar ' ' (cnt ++ ' ' :: (a ++ ' ' :: (b ++ ['\n'])))
      = cnt :: splitChar ' ' (a ++ ' ' :: (b ++ ['\n'])) :=
    splitChar_sep ' ' cnt _ (fun c hc =>
      digit_ne_char (List.all_eq_true.mp hcd c hc) (by decide))
  have hs2 : splitChar ' ' (a ++ ' ' :: (b ++ ['\n']))
      = a :: splitChar ' ' (b ++ ['\n']) :=
    splitChar_sep ' ' a _ (fun c hc => (ha c hc).1)
  have hproc : processNgramLine [] (cnt ++ ' ' :: (a ++ ' ' :: (b ++ ['\n'])))
      = .ok [(a, (natOfDigits cnt : Int))] := by
    unfold processNgramLine
    rw [hs1, hs2]
    simp only [List.getElem?_cons_succ, List.getElem?_cons_zero]
    rw [pyInt_digits hcne hcd,
      show stripNl a = a from stripBoth_eq_self _ a (fun c hc => (ha c hc).2.1)]
    rfl
  unfold ngramLoop
  rw [hproc]
  rfl

/-- C10 witness: the file line `7 x y z` keys only `x`, with count 7. -/
theorem c10_witness :
    load_lang_ngrams [[str "crh", str "crh"]] fsSpaceTok (some (str "crh"))
      = .ok [(str "x", 7)] :=
  c10_space_in_token [[str "crh", str "crh"]] fsSpaceTok (some (str "crh")) (str "crh")
    (str "7") (str "x") (str "y z") rfl rfl rfl (by decide) (by decide)
    (by decide) (by decide)

end Crubadan
